import Mathlib

/-!
Shallow embedding of `src/sim/sim.py`: a minimal 2D obstacle-avoidance
simulator.  Python floats are modelled as real numbers; the mutating
`Robot.step` method is modelled as a pure function returning the new pose.
-/

noncomputable section

open Real

/-- Config constant `DT` from sim.py. -/
def DT : ℝ := 0.05

/-- Config constant `V_FWD` from sim.py. -/
def V_FWD : ℝ := 0.25

/-- Config constant `W_TURN` from sim.py. -/
def W_TURN : ℝ := 1.8

/-- Config constant `STOP_D` from sim.py. -/
def STOP_D : ℝ := 0.30

/-- Config constant `GO_D` from sim.py. -/
def GO_D : ℝ := 0.55

/-- The state label strings used by the FSM. -/
def FORWARD : String := "FORWARD"

/-- The TURN state label. -/
def TURN : String := "TURN"

/-- Reason label returned when the robot gets too close. -/
def too_close : String := "too_close"

/-- Reason label returned when the path is clear. -/
def clear : String := "clear"

/-- Reason label returned when the robot has cleared the obstacle. -/
def cleared : String := "cleared"

/-- Reason label returned while the robot keeps turning. -/
def turning : String := "turning"

/-- The robot pose: `@dataclass class Robot` from sim.py. -/
structure Robot where
  x : ℝ
  y : ℝ
  theta : ℝ

/-- `Robot.step`: forward Euler integration of the unicycle model.
The Python method mutates `self`; here it returns the updated pose. -/
def Robot.step (r : Robot) (v w dt : ℝ) : Robot :=
  { x := r.x + v * Real.cos r.theta * dt
    y := r.y + v * Real.sin r.theta * dt
    theta := r.theta + w * dt }

/-- Helper for the termination of the `wrap_pi` loops. -/
theorem ceil_pred_lt (t : ℝ) (ht : 0 < t) : ⌈t - 1⌉₊ < ⌈t⌉₊ := by
  have h1 : 1 ≤ ⌈t⌉₊ := Nat.ceil_pos.mpr ht
  have h2 : ⌈t - 1⌉₊ ≤ ⌈t⌉₊ - 1 := by
    rw [Nat.ceil_le, Nat.cast_sub h1, Nat.cast_one]
    exact sub_le_sub_right (Nat.le_ceil t) 1
  omega

/-- First loop of `wrap_pi`: `while a > math.pi: a -= 2 * math.pi`. -/
def wrapDown (a : ℝ) : ℝ :=
  if h : a > Real.pi then wrapDown (a - 2 * Real.pi) else a
termination_by ⌈(a - Real.pi) / (2 * Real.pi)⌉₊
decreasing_by
  have hπ : (0:ℝ) < Real.pi := Real.pi_pos
  have h2π : (0:ℝ) < 2 * Real.pi := by linarith
  have heq : (a - 2 * Real.pi - Real.pi) / (2 * Real.pi)
      = (a - Real.pi) / (2 * Real.pi) - 1 := by
    field_simp
    ring
  rw [heq]
  exact ceil_pred_lt _ (div_pos (by linarith) h2π)

/-- Second loop of `wrap_pi`: `while a < -math.pi: a += 2 * math.pi`. -/
def wrapUp (a : ℝ) : ℝ :=
  if h : a < -Real.pi then wrapUp (a + 2 * Real.pi) else a
termination_by ⌈(-Real.pi - a) / (2 * Real.pi)⌉₊
decreasing_by
  have hπ : (0:ℝ) < Real.pi := Real.pi_pos
  have h2π : (0:ℝ) < 2 * Real.pi := by linarith
  have heq : (-Real.pi - (a + 2 * Real.pi)) / (2 * Real.pi)
      = (-Real.pi - a) / (2 * Real.pi) - 1 := by
    field_simp
    ring
  rw [heq]
  exact ceil_pred_lt _ (div_pos (by linarith) h2π)

/-- `wrap_pi` from sim.py: both loops in sequence. -/
def wrap_pi (a : ℝ) : ℝ := wrapUp (wrapDown a)

theorem wrapDown_le (a : ℝ) : wrapDown a ≤ Real.pi := by
  induction a using wrapDown.induct with
  | case1 a h ih => rw [wrapDown, dif_pos h]; exact ih
  | case2 a h => rw [wrapDown, dif_neg h]; exact le_of_not_lt h

theorem wrapUp_ge (a : ℝ) : -Real.pi ≤ wrapUp a := by
  induction a using wrapUp.induct with
  | case1 a h ih => rw [wrapUp, dif_pos h]; exact ih
  | case2 a h => rw [wrapUp, dif_neg h]; exact le_of_not_lt h

theorem wrapUp_le (a : ℝ) (ha : a ≤ Real.pi) : wrapUp a ≤ Real.pi := by
  induction a using wrapUp.induct with
  | case1 a h ih =>
    rw [wrapUp, dif_pos h]
    have hπ : (0:ℝ) < Real.pi := Real.pi_pos
    exact ih (by linarith)
  | case2 a h => rw [wrapUp, dif_neg h]; exact ha

theorem wrapDown_sub (a : ℝ) : ∃ k : ℤ, wrapDown a = a - 2 * Real.pi * k := by
  induction a using wrapDown.induct with
  | case1 a h ih =>
    obtain ⟨k, hk⟩ := ih
    refine ⟨k + 1, ?_⟩
    rw [wrapDown, dif_pos h, hk]
    push_cast
    ring
  | case2 a h => exact ⟨0, by rw [wrapDown, dif_neg h]; push_cast; ring⟩

theorem wrapUp_sub (a : ℝ) : ∃ k : ℤ, wrapUp a = a + 2 * Real.pi * k := by
  induction a using wrapUp.induct with
  | case1 a h ih =>
    obtain ⟨k, hk⟩ := ih
    refine ⟨k + 1, ?_⟩
    rw [wrapUp, dif_pos h, hk]
    push_cast
    ring
  | case2 a h => exact ⟨0, by rw [wrapUp, dif_neg h]; push_cast; ring⟩

/-- `distance_to` from sim.py: `math.hypot(ox - robot.x, oy - robot.y)`. -/
def distance_to (r : Robot) (ox oy : ℝ) : ℝ :=
  Real.sqrt ((ox - r.x) ^ 2 + (oy - r.y) ^ 2)

/-- Python's `min(iterable, key=...)` specialised to the distance key:
scan the remaining list, replacing the running best only on a strict
decrease of the key (so the first minimal element wins ties). -/
def minByDist (r : Robot) : (ℝ × ℝ) → List (ℝ × ℝ) → ℝ × ℝ
  | best, [] => best
  | best, p :: ps =>
    minByDist r (if distance_to r p.1 p.2 < distance_to r best.1 best.2 then p else best) ps

/-- `nearest_obstacle` from sim.py.  Python's `min` raises on an empty
list; that is modelled by returning `none`. -/
def nearest_obstacle (r : Robot) : List (ℝ × ℝ) → Option (ℝ × ℝ × ℝ)
  | [] => none
  | p :: ps =>
    some ((minByDist r p ps).1, (minByDist r p ps).2,
      distance_to r (minByDist r p ps).1 (minByDist r p ps).2)

/-- `math.atan2 y x`, modelled as the argument of the complex number
`x + y i`, which lands in the interval from -pi (exclusive) to pi. -/
def atan2 (y x : ℝ) : ℝ := Complex.arg ⟨x, y⟩

/-- `choose_turn_direction` from sim.py: turn away from the obstacle
using the sign of the wrapped relative bearing. -/
def choose_turn_direction (r : Robot) (ox oy : ℝ) : ℝ :=
  if wrap_pi (atan2 (oy - r.y) (ox - r.x) - r.theta) > 0 then -W_TURN else W_TURN

/-- `decision_fsm` from sim.py: two-state FSM with hysteresis.  The
result tuple is (next state, v, omega, reason). -/
def decision_fsm (state : String) (dmin : ℝ) (turn_w : ℝ) : String × ℝ × ℝ × String :=
  if state = FORWARD then
    if dmin < STOP_D then (TURN, 0, turn_w, too_close)
    else (FORWARD, V_FWD, 0, clear)
  else
    if dmin > GO_D then (FORWARD, V_FWD, 0, cleared)
    else (TURN, 0, turn_w, turning)

/-- Iterating the FSM over a list of distance readings (state component
only), as the run loop does one reading per step. -/
def fsm_run (turn_w : ℝ) (s : String) (ds : List ℝ) : String :=
  ds.foldl (fun st d => (decision_fsm st d turn_w).1) s

/-- Iterating `Robot.step` n times with a constant command. -/
def Robot.stepN (r : Robot) (v w dt : ℝ) : ℕ → Robot
  | 0 => r
  | n + 1 => (r.stepN v w dt n).step v w dt

/-- Modelled from the spec: the spec describes relative bearings as
"wrapped to (-pi, pi]" (half-open, containing pi, excluding -pi).  This
is the unique representative of `a` modulo 2 pi in that interval; it is
stated here only to compare the spec's wording with `wrap_pi` from the
source. -/
def wrap_pi_spec (a : ℝ) : ℝ :=
  a - 2 * Real.pi * ⌈a / (2 * Real.pi) - 1 / 2⌉

/-- An unrecognized state label, used to exercise the FSM's catch-all
branch. -/
def LOST : String := "LOST"

theorem wrapDown_eq_self (a : ℝ) (h : a ≤ Real.pi) : wrapDown a = a := by
  rw [wrapDown, dif_neg (not_lt.mpr h)]

theorem wrapUp_eq_self (a : ℝ) (h : -Real.pi ≤ a) : wrapUp a = a := by
  rw [wrapUp, dif_neg (not_lt.mpr h)]

theorem wrap_pi_eq_self (a : ℝ) (h1 : -Real.pi ≤ a) (h2 : a ≤ Real.pi) :
    wrap_pi a = a := by
  rw [wrap_pi, wrapDown_eq_self a h2, wrapUp_eq_self a h1]

theorem fsm_run_turn (w : ℝ) (ds : List ℝ) (h : ∀ d ∈ ds, d ≤ GO_D) :
    fsm_run w TURN ds = TURN := by
  induction ds with
  | nil => rfl
  | cons d ds ih =>
    have hd : d ≤ GO_D := h d (List.mem_cons_self d ds)
    have hstep : (decision_fsm TURN d w).1 = TURN := by
      rw [decision_fsm, if_neg (by decide), if_neg (not_lt.mpr hd)]
    show fsm_run w ((decision_fsm TURN d w).1) ds = TURN
    rw [hstep]
    exact ih (fun e he => h e (List.mem_cons_of_mem d he))

/-- C1: `decision_fsm` implements the two-state transition table: in
FORWARD with d < STOP_D it turns (command (0, turn_w), reason
too_close); in FORWARD with d ≥ STOP_D it stays FORWARD with
(V_FWD, 0) and reason clear; in TURN with d > GO_D it goes FORWARD with
(V_FWD, 0) and reason cleared; in TURN with d ≤ GO_D it stays TURN with
(0, turn_w) and reason turning — for every real d and turn_w. -/
theorem decision_fsm_table (d w : ℝ) :
    (d < STOP_D → decision_fsm FORWARD d w = (TURN, 0, w, too_close)) ∧
    (STOP_D ≤ d → decision_fsm FORWARD d w = (FORWARD, V_FWD, 0, clear)) ∧
    (GO_D < d → decision_fsm TURN d w = (FORWARD, V_FWD, 0, cleared)) ∧
    (d ≤ GO_D → decision_fsm TURN d w = (TURN, 0, w, turning)) := by
  refine ⟨fun h => ?_, fun h => ?_, fun h => ?_, fun h => ?_⟩
  · rw [decision_fsm, if_pos rfl, if_pos h]
  · rw [decision_fsm, if_pos rfl, if_neg (not_lt.mpr h)]
  · rw [decision_fsm, if_neg (by decide), if_pos h]
  · rw [decision_fsm, if_neg (by decide), if_neg (not_lt.mpr h)]

theorem decision_fsm_table_witness :
    (0:ℝ) < STOP_D ∧ decision_fsm FORWARD 0 1 = (TURN, 0, 1, too_close) :=
  ⟨by norm_num [STOP_D], (decision_fsm_table 0 1).1 (by norm_num [STOP_D])⟩

/-- C2: hysteresis (no chatter): for every finite sequence of distance
readings all at most GO_D, iterating `decision_fsm` from state TURN
keeps the state equal to TURN at every step (every prefix of the run
ends in TURN). -/
theorem fsm_no_chatter (w : ℝ) (ds : List ℝ) (h : ∀ d ∈ ds, d ≤ GO_D) (n : ℕ) :
    fsm_run w TURN (ds.take n) = TURN :=
  fsm_run_turn w _ (fun d hd => h d (List.take_subset n ds hd))

theorem fsm_no_chatter_witness :
    (∀ d ∈ [(0.5:ℝ), 0.2, 0.54], d ≤ GO_D) ∧
      fsm_run 1 TURN ([(0.5:ℝ), 0.2, 0.54].take 3) = TURN := by
  have h : ∀ d ∈ [(0.5:ℝ), 0.2, 0.54], d ≤ GO_D := by
    intro d hd
    rcases List.mem_cons.mp hd with h1 | hd
    · rw [h1]; norm_num [GO_D]
    rcases List.mem_cons.mp hd with h1 | hd
    · rw [h1]; norm_num [GO_D]
    rcases List.mem_cons.mp hd with h1 | hd
    · rw [h1]; norm_num [GO_D]
    · exact absurd hd (List.not_mem_nil d)
  exact ⟨h, fsm_no_chatter 1 _ h 3⟩

/-- C3 counterexample: at the boundary d = GO_D (so d ≥ GO_D holds) the
FSM in state TURN does not return FORWARD with (V_FWD, 0); it stays in
TURN. -/
theorem decision_fsm_go_boundary_counterexample :
    GO_D ≤ GO_D ∧ (decision_fsm TURN GO_D 1).1 ≠ FORWARD := by
  refine ⟨le_refl GO_D, ?_⟩
  have hval : decision_fsm TURN GO_D 1 = (TURN, 0, 1, turning) := by
    rw [decision_fsm, if_neg (by decide), if_neg (lt_irrefl GO_D)]
  rw [hval]
  decide

/-- C3 amended: for every d strictly greater than GO_D, `decision_fsm`
in state TURN returns FORWARD with command (V_FWD, 0) and reason
cleared; at the boundary d = GO_D it instead stays in TURN with
(0, turn_w) and reason turning. -/
theorem decision_fsm_turn_exit (d w : ℝ) :
    (GO_D < d → decision_fsm TURN d w = (FORWARD, V_FWD, 0, cleared)) ∧
    (d = GO_D → decision_fsm TURN d w = (TURN, 0, w, turning)) := by
  refine ⟨fun h => ?_, fun h => ?_⟩
  · rw [decision_fsm, if_neg (by decide), if_pos h]
  · rw [decision_fsm, if_neg (by decide), if_neg (by rw [h]; exact lt_irrefl GO_D)]

theorem decision_fsm_turn_exit_witness :
    GO_D < (0.56:ℝ) ∧ decision_fsm TURN 0.56 1 = (FORWARD, V_FWD, 0, cleared) :=
  ⟨by norm_num [GO_D], (decision_fsm_turn_exit 0.56 1).1 (by norm_num [GO_D])⟩

/-- C9: noninterference of the turn-rate input: for every state label,
distance and two turn rates, `decision_fsm` returns the same next
state, the same linear speed v and the same reason label — the
transition depends only on (state, distance). -/
theorem decision_fsm_noninterference (s : String) (d w1 w2 : ℝ) :
    (decision_fsm s d w1).1 = (decision_fsm s d w2).1 ∧
    (decision_fsm s d w1).2.1 = (decision_fsm s d w2).2.1 ∧
    (decision_fsm s d w1).2.2.2 = (decision_fsm s d w2).2.2.2 := by
  rw [decision_fsm, decision_fsm]
  split_ifs <;> exact ⟨rfl, rfl, rfl⟩

/-- C10: every state label other than FORWARD (including labels that
are neither FORWARD nor TURN) is treated exactly like TURN, and no
error is raised. -/
theorem decision_fsm_unrecognized (s : String) (d w : ℝ) (h : s ≠ FORWARD) :
    decision_fsm s d w = decision_fsm TURN d w := by
  have hTF : ¬ (TURN = FORWARD) := by decide
  rw [decision_fsm, decision_fsm, if_neg h, if_neg hTF]

theorem decision_fsm_unrecognized_witness :
    LOST ≠ FORWARD ∧ decision_fsm LOST 1 2 = decision_fsm TURN 1 2 :=
  ⟨by decide, decision_fsm_unrecognized LOST 1 2 (by decide)⟩

/-- C6: `Robot.step` performs one forward-Euler step of the unicycle
model: the new pose is exactly (x + v cos(theta) dt, y + v sin(theta) dt,
theta + omega dt), with no wrapping of the resulting heading. -/
theorem robot_step_euler (r : Robot) (v w dt : ℝ) (hdt : 0 < dt) :
    Robot.step r v w dt =
      { x := r.x + v * Real.cos r.theta * dt
        y := r.y + v * Real.sin r.theta * dt
        theta := r.theta + w * dt } := rfl

theorem robot_step_euler_witness :
    (0:ℝ) < 1 ∧ Robot.step ⟨0, 0, 0⟩ 2 3 1 =
      { x := 0 + 2 * Real.cos 0 * 1
        y := 0 + 2 * Real.sin 0 * 1
        theta := (0:ℝ) + 3 * 1 } :=
  ⟨by norm_num, robot_step_euler ⟨0, 0, 0⟩ 2 3 1 (by norm_num)⟩

theorem stepN_straight (r : Robot) (v dt : ℝ) (n : ℕ) :
    (r.stepN v 0 dt n).x = r.x + n * (v * Real.cos r.theta * dt) ∧
    (r.stepN v 0 dt n).y = r.y + n * (v * Real.sin r.theta * dt) ∧
    (r.stepN v 0 dt n).theta = r.theta := by
  induction n with
  | zero => refine ⟨?_, ?_, rfl⟩ <;> simp [Robot.stepN]
  | succ n ih =>
    obtain ⟨hx, hy, ht⟩ := ih
    refine ⟨?_, ?_, ?_⟩ <;>
      simp only [Robot.stepN, Robot.step, hx, hy, ht] <;> push_cast <;> ring

/-- C7: straight-line exactness: n applications of `Robot.step` with
command (v, 0) leave the heading unchanged, and the Euclidean magnitude
of the total (x, y) displacement equals v n dt, for v ≥ 0 and dt > 0. -/
theorem robot_straight_line (r : Robot) (v dt : ℝ) (hv : 0 ≤ v) (hdt : 0 < dt)
    (n : ℕ) :
    (r.stepN v 0 dt n).theta = r.theta ∧
    Real.sqrt (((r.stepN v 0 dt n).x - r.x) ^ 2 + ((r.stepN v 0 dt n).y - r.y) ^ 2)
      = v * n * dt := by
  obtain ⟨hx, hy, ht⟩ := stepN_straight r v dt n
  refine ⟨ht, ?_⟩
  rw [hx, hy, add_sub_cancel_left, add_sub_cancel_left]
  have hpyth := Real.sin_sq_add_cos_sq r.theta
  have key : (↑n * (v * Real.cos r.theta * dt)) ^ 2
      + (↑n * (v * Real.sin r.theta * dt)) ^ 2 = (v * ↑n * dt) ^ 2 := by
    have hexp : (↑n * (v * Real.cos r.theta * dt)) ^ 2
        + (↑n * (v * Real.sin r.theta * dt)) ^ 2
        = (v * ↑n * dt) ^ 2 * (Real.sin r.theta ^ 2 + Real.cos r.theta ^ 2) := by
      ring
    rw [hexp, hpyth, mul_one]
  rw [key]
  exact Real.sqrt_sq (by positivity)

theorem robot_straight_line_witness :
    (0:ℝ) ≤ 1 ∧ (0:ℝ) < 1 ∧
      ((Robot.stepN ⟨0, 0, 0⟩ 1 0 1 2).theta = (0:ℝ) ∧
        Real.sqrt (((Robot.stepN ⟨0, 0, 0⟩ 1 0 1 2).x - 0) ^ 2
          + ((Robot.stepN ⟨0, 0, 0⟩ 1 0 1 2).y - 0) ^ 2) = 1 * (2:ℕ) * 1) :=
  ⟨by norm_num, by norm_num,
    robot_straight_line ⟨0, 0, 0⟩ 1 1 (by norm_num) (by norm_num) 2⟩

/-- C8 counterexample: `wrap_pi` maps -pi to itself, so its value does
not lie strictly above -pi; the claimed interval (-pi, pi] fails at the
input -pi. -/
theorem wrap_pi_boundary_counterexample :
    wrap_pi (-Real.pi) = -Real.pi ∧ ¬ (-Real.pi < wrap_pi (-Real.pi)) := by
  have h := wrap_pi_eq_self (-Real.pi) (le_refl _) (by linarith [Real.pi_pos])
  exact ⟨h, by rw [h]; exact lt_irrefl _⟩

/-- C8 amended: for every real a, `wrap_pi a` differs from a by an
integer multiple of 2 pi and lies in the closed interval [-pi, pi]
(the loops use strict comparisons, so both endpoints are fixed points
and -pi is attainable). -/
theorem wrap_pi_range (a : ℝ) :
    (∃ k : ℤ, wrap_pi a = a + 2 * Real.pi * k) ∧
    -Real.pi ≤ wrap_pi a ∧ wrap_pi a ≤ Real.pi := by
  refine ⟨?_, wrapUp_ge _, wrapUp_le _ (wrapDown_le a)⟩
  obtain ⟨k1, h1⟩ := wrapDown_sub a
  obtain ⟨k2, h2⟩ := wrapUp_sub (wrapDown a)
  refine ⟨k2 - k1, ?_⟩
  rw [wrap_pi, h2, h1]
  push_cast
  ring

/-- Soundness of the spec-modelled wrap: `wrap_pi_spec` really is the
representative modulo 2 pi in the half-open interval (-pi, pi] that the
spec's wording describes. -/
theorem wrap_pi_spec_sound (a : ℝ) :
    (∃ k : ℤ, wrap_pi_spec a = a + 2 * Real.pi * k) ∧
    -Real.pi < wrap_pi_spec a ∧ wrap_pi_spec a ≤ Real.pi := by
  have hπ : (0:ℝ) < Real.pi := Real.pi_pos
  have h2π : (0:ℝ) < 2 * Real.pi := by linarith
  refine ⟨⟨-⌈a / (2 * Real.pi) - 1 / 2⌉, by rw [wrap_pi_spec]; push_cast; ring⟩, ?_, ?_⟩
  · have h2 : (⌈a / (2 * Real.pi) - 1 / 2⌉ : ℝ) - 1 < a / (2 * Real.pi) - 1 / 2 := by
      have := Int.ceil_lt_add_one (a / (2 * Real.pi) - 1 / 2)
      linarith
    have hx : 2 * Real.pi * ((⌈a / (2 * Real.pi) - 1 / 2⌉ : ℝ) - 1)
        < 2 * Real.pi * (a / (2 * Real.pi) - 1 / 2) :=
      mul_lt_mul_of_pos_left h2 h2π
    have hy : 2 * Real.pi * (a / (2 * Real.pi) - 1 / 2) = a - Real.pi := by
      field_simp
      ring
    rw [hy] at hx
    rw [wrap_pi_spec]
    ring_nf
    ring_nf at hx
    linarith
  · have h1 : a / (2 * Real.pi) - 1 / 2 ≤ (⌈a / (2 * Real.pi) - 1 / 2⌉ : ℝ) :=
      Int.le_ceil _
    have hx : 2 * Real.pi * (a / (2 * Real.pi) - 1 / 2)
        ≤ 2 * Real.pi * (⌈a / (2 * Real.pi) - 1 / 2⌉ : ℝ) :=
      mul_le_mul_of_nonneg_left h1 (le_of_lt h2π)
    have hy : 2 * Real.pi * (a / (2 * Real.pi) - 1 / 2) = a - Real.pi := by
      field_simp
      ring
    rw [hy] at hx
    rw [wrap_pi_spec]
    ring_nf
    ring_nf at hx
    linarith

theorem atan2_east : atan2 ((0:ℝ) - 0) (1 - 0) = 0 := by
  have h1 : (⟨(1:ℝ) - 0, (0:ℝ) - 0⟩ : ℂ) = 1 := by
    apply Complex.ext <;> simp
  rw [atan2, h1, Complex.arg_one]

/-- C4 counterexample: robot at the origin with heading pi, obstacle at
(1, 0).  The relative bearing wrapped to (-pi, pi], as the claim words
it, is pi (positive), so the claim demands -W_TURN; the code wraps with
`wrap_pi`, obtains -pi, and returns +W_TURN. -/
theorem choose_turn_direction_boundary_counterexample :
    0 < wrap_pi_spec (atan2 ((0:ℝ) - 0) (1 - 0) - Real.pi) ∧
      choose_turn_direction ⟨0, 0, Real.pi⟩ 1 0 ≠ -W_TURN := by
  have hπ : (0:ℝ) < Real.pi := Real.pi_pos
  constructor
  · have hspec : wrap_pi_spec (atan2 ((0:ℝ) - 0) (1 - 0) - Real.pi) = Real.pi := by
      rw [atan2_east, wrap_pi_spec]
      have h2 : (0 - Real.pi) / (2 * Real.pi) - 1 / 2 = ((-1 : ℤ) : ℝ) := by
        push_cast
        field_simp
        ring
      rw [h2, Int.ceil_intCast]
      push_cast
      ring
    rw [hspec]
    exact hπ
  · have hrel : wrap_pi (atan2 ((0:ℝ) - 0) (1 - 0) - Real.pi) = -Real.pi := by
      rw [atan2_east, zero_sub]
      exact wrap_pi_eq_self (-Real.pi) (le_refl _) (by linarith)
    have hcode : choose_turn_direction ⟨0, 0, Real.pi⟩ 1 0 = W_TURN := by
      rw [choose_turn_direction, if_neg (by rw [hrel]; exact not_lt.mpr (by linarith))]
    rw [hcode]
    norm_num [W_TURN]

/-- C4 amended: `choose_turn_direction` returns -W_TURN when the
relative bearing wrapped by the code's `wrap_pi` (range [-pi, pi], with
-pi a fixed point) is strictly positive, and +W_TURN otherwise
(including the boundary where the wrapped bearing is exactly -pi, i.e.
obstacle directly behind); the magnitude is always exactly W_TURN. -/
theorem choose_turn_direction_sign (r : Robot) (ox oy : ℝ) :
    (0 < wrap_pi (atan2 (oy - r.y) (ox - r.x) - r.theta) →
      choose_turn_direction r ox oy = -W_TURN) ∧
    (wrap_pi (atan2 (oy - r.y) (ox - r.x) - r.theta) ≤ 0 →
      choose_turn_direction r ox oy = W_TURN) ∧
    |choose_turn_direction r ox oy| = W_TURN := by
  refine ⟨fun h => ?_, fun h => ?_, ?_⟩
  · rw [choose_turn_direction, if_pos h]
  · rw [choose_turn_direction, if_neg (not_lt.mpr h)]
  · rw [choose_turn_direction]
    split_ifs
    · rw [abs_neg]
      exact abs_of_pos (by norm_num [W_TURN])
    · exact abs_of_pos (by norm_num [W_TURN])

theorem choose_turn_direction_sign_witness :
    0 < wrap_pi (atan2 ((0:ℝ) - 0) (1 - 0) - (-1)) ∧
      choose_turn_direction ⟨0, 0, -1⟩ 1 0 = -W_TURN := by
  have hπ : (3:ℝ) < Real.pi := Real.pi_gt_three
  have hw : wrap_pi (atan2 ((0:ℝ) - 0) (1 - 0) - (-1)) = 1 := by
    rw [atan2_east, zero_sub, neg_neg]
    exact wrap_pi_eq_self 1 (by linarith) (by linarith)
  have h0 : 0 < wrap_pi (atan2 ((0:ℝ) - 0) (1 - 0) - (-1)) := by
    rw [hw]; norm_num
  exact ⟨h0, (choose_turn_direction_sign ⟨0, 0, -1⟩ 1 0).1 h0⟩

/-- Distance from the robot to a point given as a pair (abbreviation
for stating the `min`-scan invariant). -/
def distP (r : Robot) (p : ℝ × ℝ) : ℝ := distance_to r p.1 p.2

/-- Invariant of the Python `min(..., key=...)` scan: the result either
is the running best, which is then no farther than every scanned point,
or it is the first point of the scanned list realising a strict
improvement, with everything before it strictly farther and everything
after it no closer. -/
theorem minByDist_spec (r : Robot) (ps : List (ℝ × ℝ)) : ∀ best,
    (minByDist r best ps = best ∧ ∀ p ∈ ps, distP r best ≤ distP r p) ∨
    (∃ l1 l2, ps = l1 ++ minByDist r best ps :: l2 ∧
      distP r (minByDist r best ps) < distP r best ∧
      (∀ p ∈ l1, distP r (minByDist r best ps) < distP r p) ∧
      (∀ p ∈ l2, distP r (minByDist r best ps) ≤ distP r p)) := by
  induction ps with
  | nil =>
    intro best
    left
    exact ⟨rfl, by intro p hp; exact absurd hp (List.not_mem_nil p)⟩
  | cons q ps ih =>
    intro best
    by_cases hq : distance_to r q.1 q.2 < distance_to r best.1 best.2
    · have hunf : minByDist r best (q :: ps) = minByDist r q ps := by
        show minByDist r
          (if distance_to r q.1 q.2 < distance_to r best.1 best.2 then q else best) ps
          = minByDist r q ps
        rw [if_pos hq]
      rcases ih q with ⟨heq, hall⟩ | ⟨l1, l2, hsplit, hlt, hl1, hl2⟩
      · right
        refine ⟨[], ps, ?_, ?_, ?_, ?_⟩
        · rw [hunf, heq]
          rfl
        · rw [hunf, heq]
          exact hq
        · intro p hp
          exact absurd hp (List.not_mem_nil p)
        · intro p hp
          rw [hunf, heq]
          exact hall p hp
      · right
        refine ⟨q :: l1, l2, ?_, ?_, ?_, ?_⟩
        · rw [hunf, List.cons_append, ← hsplit]
        · rw [hunf]
          exact lt_trans hlt hq
        · intro p hp
          rcases List.mem_cons.mp hp with h1 | h1
          · rw [hunf, h1]
            exact hlt
          · rw [hunf]
            exact hl1 p h1
        · intro p hp
          rw [hunf]
          exact hl2 p hp
    · have hunf : minByDist r best (q :: ps) = minByDist r best ps := by
        show minByDist r
          (if distance_to r q.1 q.2 < distance_to r best.1 best.2 then q else best) ps
          = minByDist r best ps
        rw [if_neg hq]
      have hbq : distP r best ≤ distP r q := le_of_not_lt hq
      rcases ih best with ⟨heq, hall⟩ | ⟨l1, l2, hsplit, hlt, hl1, hl2⟩
      · left
        refine ⟨by rw [hunf, heq], ?_⟩
        intro p hp
        rcases List.mem_cons.mp hp with h1 | h1
        · rw [h1]
          exact hbq
        · exact hall p h1
      · right
        refine ⟨q :: l1, l2, ?_, ?_, ?_, ?_⟩
        · rw [hunf, List.cons_append, ← hsplit]
        · rw [hunf]
          exact hlt
        · intro p hp
          rcases List.mem_cons.mp hp with h1 | h1
          · rw [hunf, h1]
            exact lt_of_lt_of_le hlt hbq
          · rw [hunf]
            exact hl1 p h1
        · intro p hp
          rw [hunf]
          exact hl2 p hp

/-- C5: for every robot pose and non-empty obstacle list,
`nearest_obstacle` returns the coordinates of an obstacle of minimal
Euclidean distance together with that distance, and on ties it returns
the first minimal element in list order (every element strictly before
the returned one is strictly farther). -/
theorem nearest_obstacle_spec (r : Robot) (obs : List (ℝ × ℝ)) (h : obs ≠ []) :
    ∃ q l1 l2, nearest_obstacle r obs = some (q.1, q.2, distance_to r q.1 q.2) ∧
      obs = l1 ++ q :: l2 ∧
      (∀ p ∈ l1, distance_to r q.1 q.2 < distance_to r p.1 p.2) ∧
      (∀ p ∈ obs, distance_to r q.1 q.2 ≤ distance_to r p.1 p.2) := by
  cases obs with
  | nil => exact absurd rfl h
  | cons p ps =>
    have hne : nearest_obstacle r (p :: ps)
        = some ((minByDist r p ps).1, (minByDist r p ps).2,
            distance_to r (minByDist r p ps).1 (minByDist r p ps).2) := rfl
    rcases minByDist_spec r ps p with ⟨heq, hall⟩ | ⟨l1, l2, hsplit, hlt, hl1, hl2⟩
    · refine ⟨minByDist r p ps, [], ps, hne, ?_, ?_, ?_⟩
      · rw [heq]
        rfl
      · intro p2 hp2
        exact absurd hp2 (List.not_mem_nil p2)
      · intro p2 hp2
        rcases List.mem_cons.mp hp2 with h1 | h1
        · rw [heq, h1]
        · have := hall p2 h1
          rw [heq]
          exact this
    · refine ⟨minByDist r p ps, p :: l1, l2, hne, ?_, ?_, ?_⟩
      · rw [List.cons_append, ← hsplit]
      · intro p2 hp2
        rcases List.mem_cons.mp hp2 with h1 | h1
        · rw [h1]
          exact hlt
        · exact hl1 p2 h1
      · intro p2 hp2
        rcases List.mem_cons.mp hp2 with h1 | h1
        · rw [h1]
          exact le_of_lt hlt
        · rw [hsplit] at h1
          rcases List.mem_append.mp h1 with h2 | h2
          · exact le_of_lt (hl1 p2 h2)
          · rcases List.mem_cons.mp h2 with h3 | h3
            · rw [h3]
            · exact hl2 p2 h3

theorem nearest_obstacle_spec_witness :
    ([((1:ℝ), (0:ℝ)), (2, 0)] ≠ []) ∧
      (∃ q l1 l2,
        nearest_obstacle ⟨0, 0, 0⟩ [((1:ℝ), (0:ℝ)), (2, 0)]
          = some (q.1, q.2, distance_to ⟨0, 0, 0⟩ q.1 q.2) ∧
        [((1:ℝ), (0:ℝ)), (2, 0)] = l1 ++ q :: l2 ∧
        (∀ p ∈ l1, distance_to ⟨0, 0, 0⟩ q.1 q.2 < distance_to ⟨0, 0, 0⟩ p.1 p.2) ∧
        (∀ p ∈ [((1:ℝ), (0:ℝ)), (2, 0)],
          distance_to ⟨0, 0, 0⟩ q.1 q.2 ≤ distance_to ⟨0, 0, 0⟩ p.1 p.2)) :=
  ⟨by simp, nearest_obstacle_spec ⟨0, 0, 0⟩ [((1:ℝ), (0:ℝ)), (2, 0)] (by simp)⟩
